import Mathlib

/-!
Verification of the `lasagne.updates` module (src/lasagne/updates.py): a
library of gradient-based parameter-update rules built on a symbolic tensor
engine.  Each rule returns an update mapping from mutable cells (parameters
and auxiliary state cells) to the expression for their next value.

Shallow embedding conventions:
* Floating-point tensors are modelled elementwise over `ℝ`; a per-parameter
  tensor becomes a function `Fin n → ℝ` (one representative component per
  parameter suffices because every rule here acts elementwise).
* An update mapping (Python `OrderedDict`) is modelled either as a partial
  function `K → Option ℝ` from cells to next-value expressions (when no claim
  depends on insertion order) or as an association list `List (K × V)` (for
  `apply_burnout`, whose source zips over `items()`).
* A symbolic expression is evaluated at the current (pre-update) values of
  all cells, so an expression becomes the real value it takes this step; a
  shared variable (state cell) appearing inside an expression becomes the
  argument holding its current value.
* Python's `dict`/`OrderedDict` object identity (needed for the frame claims
  about `apply_momentum`) is modelled by an explicit store mapping references
  to dictionaries.
* The external Theano engine (out of scope for the repository) appears only
  through its interface: `theano.grad(loss, params)` is a function producing
  one gradient per parameter in order, `theano.shared` cells are the keys of
  the mappings.
-/

namespace Lasagne

noncomputable section

/-- Pointwise update of a partial-function dictionary: Python `d[k] = v`. -/
def fset {K : Type} [DecidableEq K] (d : K → Option ℝ) (k : K) (v : ℝ) :
    K → Option ℝ :=
  fun c => if c = k then some v else d c

/-- Applying an update mapping one step: a cell not present in the mapping
keeps its current value. -/
def nextValue {K : Type} (u : K → Option ℝ) (cur : K → ℝ) (c : K) : ℝ :=
  (u c).getD (cur c)

/-! ### `exponential_moving_average` (src/lasagne/updates.py lines 165-203)

`ema(alpha, s_t, x_t, t=None, init_period=None)` returns
`(alpha * s_t + (1 - alpha) * x_t) / factor` where `factor` starts as the
constant 1; if `t` and `init_period` are both given and `init_period > 0`,
`alpha` is first multiplied by `min(1, (T-1)*t/T^2 + 1/T)`; otherwise if `t`
is given, `factor` becomes `1 - alpha**(t+1)`.  The integer arguments `t`
and `init_period` are modelled as `Option ℕ` (`None` = `none`). -/
def exponential_moving_average (alpha s_t x_t : ℝ)
    (t init_period : Option ℕ) : ℝ :=
  match t, init_period with
  | some tv, some p =>
      if 0 < p then
        let a := alpha * min 1 (((p : ℝ) - 1) * (tv : ℝ) / (p : ℝ) ^ 2 + 1 / (p : ℝ))
        (a * s_t + (1 - a) * x_t) / 1
      else
        (alpha * s_t + (1 - alpha) * x_t) / (1 - alpha ^ (tv + 1))
  | some tv, none =>
      (alpha * s_t + (1 - alpha) * x_t) / (1 - alpha ^ (tv + 1))
  | none, _ =>
      (alpha * s_t + (1 - alpha) * x_t) / 1

/-- The source aliases `ema = exponential_moving_average`. -/
def ema (alpha s_t x_t : ℝ) (t init_period : Option ℕ) : ℝ :=
  exponential_moving_average alpha s_t x_t t init_period

/-! ### `apply_decay` / `lr_decay` (src/lasagne/updates.py lines 95-123)

`apply_decay(updates, params, period, factor)` returns `updates` unchanged
when `period <= 0`; otherwise for each `p` it allocates an integer counter
cell starting at 1 and writes `updates[count] = ifelse(count >= period, 1,
count+1)` and `updates[p] = ifelse(count >= period, p*factor, p)`.  The
counter cell for `p` is `countKey p`, its current (runtime) value
`countVal p`, and `pVal p` is the current value of the decayed cell `p`;
counter values are stored in the real-valued mapping by coercion. -/
def apply_decay {K : Type} [DecidableEq K] (updates : K → Option ℝ)
    (params : List K) (countKey : K → K) (countVal : K → ℤ) (pVal : K → ℝ)
    (period : ℤ) (factor : ℝ) : K → Option ℝ :=
  if period ≤ 0 then updates
  else
    params.foldl (fun u p =>
      let cond := period ≤ countVal p
      let u1 := fset u (countKey p) (if cond then 1 else (countVal p : ℝ) + 1)
      fset u1 p (if cond then pVal p * factor else pVal p)) updates

/-- `lr_decay` wraps an update rule `updates_fn`.  If `decay_period <= 0` or
`decay_factor == 1`, the rule is called unmodified with the raw learning
rate.  Otherwise the learning rate is promoted to a shared cell `lrKey`
(whose current value this step is still `lr`), the rule is called with it,
and `apply_decay` adds the decay counter and learning-rate entries.  The
wrapped rule is abstracted as its learning-rate-to-mapping behaviour; its
other arguments are fixed by the caller. -/
def lr_decay {K : Type} [DecidableEq K] (updates_fn : ℝ → (K → Option ℝ))
    (lrKey : K) (countKey : K → K) (countVal : K → ℤ) (lr : ℝ)
    (decay_period : ℤ) (decay_factor : ℝ) : K → Option ℝ :=
  if decay_period ≤ 0 ∨ decay_factor = 1 then updates_fn lr
  else
    let updates := updates_fn lr
    apply_decay updates [lrKey] countKey countVal (fun _ => lr)
      decay_period decay_factor

/-! ### `get_or_compute_grads` (src/lasagne/updates.py lines 126-162)

The input is either a list of gradient expressions or a scalar loss,
modelled as `List G ⊕ L`.  The source first raises `ValueError` when some
parameter is not a `theano.compile.SharedVariable` (`isShared p = false`),
then, for a list input, raises `ValueError` on a length mismatch and
otherwise returns the list as is; for a loss input it returns
`theano.grad(loss_or_grads, params)`.  The external engine's `theano.grad`
is its interface (spec section 6): one gradient per parameter, in order,
modelled by a per-parameter differentiation function `grad`. -/
inductive GradError where
  | shapeMismatch : GradError
  | invalidParameterKind : GradError
deriving DecidableEq

def get_or_compute_grads {L P G : Type} (grad : L → P → G)
    (isShared : P → Bool) (loss_or_grads : List G ⊕ L) (params : List P) :
    Except GradError (List G) :=
  if params.any (fun p => !(isShared p)) then
    .error .invalidParameterKind
  else
    match loss_or_grads with
    | .inl gs =>
        if ¬(gs.length = params.length) then .error .shapeMismatch
        else .ok gs
    | .inr loss => .ok (params.map (grad loss))

/-! ### `apply_burnout` (src/lasagne/updates.py lines 1048-1059)

For `burnout > 0` the source allocates an int64 counter cell `t` starting
at 0, sets `cond = t >= burnout`, gathers `initial_values` (each key's value
in `initial_updates`, defaulting to the key itself, i.e. the cell left
unchanged, modelled by `keyVal`) and `long_values` in the iteration order of
`long_updates`, selects the whole list with `ifelse(cond, long_values,
initial_values)`, rebuilds the mapping by zipping keys with the selected
values, and adds the entry `t := t + 1`.  Since `t` starts at 0 and each
step adds 1, its runtime value at step `s` is `s`; the mapping is modelled
as a function of that runtime value `t`, and the counter entry by
`burnout_counter_next`.  For `burnout <= 0` the long mapping is returned
unchanged. -/
def apply_burnout {K V : Type} [BEq K] (long_updates initial_updates : List (K × V))
    (keyVal : K → V) (burnout : ℕ) (t : ℕ) : List (K × V) :=
  if 0 < burnout then
    let initial_values :=
      long_updates.map (fun kv => (initial_updates.lookup kv.1).getD (keyVal kv.1))
    let long_values := long_updates.map (fun kv => kv.2)
    let values := if burnout ≤ t then long_values else initial_values
    (long_updates.map (fun kv => kv.1)).zip values
  else long_updates

/-- The counter entry `updates[t] = t + 1` of `apply_burnout`. -/
def burnout_counter_next (t : ℕ) : ℕ := t + 1

/-! #### Lookup lemma for the zip-rebuilt mapping -/

/-- Looking a key up in the entrywise-rewritten mapping
`l.map (fun kv => (kv.1, g kv))` finds `g` of the first entry whose key
matches. -/
theorem lookup_map_entry {K V : Type} [BEq K] [LawfulBEq K]
    (l : List (K × V)) (g : K × V → V) (k : K) (v : V)
    (h : l.lookup k = some v) :
    (l.map (fun kv => (kv.1, g kv))).lookup k = some (g (k, v)) := by
  induction l with
  | nil => simp [List.lookup] at h
  | cons kv rest ih =>
      rcases kv with ⟨k1, v1⟩
      by_cases hk : k1 = k
      · subst hk
        simp [List.lookup] at h
        simp [List.lookup, h]
      · have hbeq : (k == k1) = false := by
          simp [beq_eq_false_iff_ne]
          exact fun hkk => hk hkk.symm
        simp [List.lookup, hbeq] at h
        simpa [List.lookup, hbeq] using ih h

/-- Zipping `l`'s keys with per-entry values is the entrywise rewrite. -/
theorem zip_map_eq_map_entry {K V : Type} (l : List (K × V)) (g : K × V → V) :
    (l.map (fun kv => kv.1)).zip (l.map g) = l.map (fun kv => (kv.1, g kv)) :=
  List.zip_map' (fun kv => kv.1) g l

/-! ### A store of dictionary objects

Python dictionaries are heap objects: `OrderedDict(updates)` allocates a
fresh one, and `updates[k] = v` mutates the object a reference points to.
`Store` models the heap: `mem r` is the dictionary object behind reference
`r`, and `next` the next fresh reference (every allocated reference is
`< next`). -/
structure Store (K : Type) where
  mem : ℕ → K → Option ℝ
  next : ℕ

/-- Read the dictionary behind a reference. -/
def getRef {K : Type} (st : Store K) (r : ℕ) : K → Option ℝ := st.mem r

/-- Allocate a fresh dictionary object holding `d`; returns the new store
and the fresh reference. -/
def allocRef {K : Type} (st : Store K) (d : K → Option ℝ) : Store K × ℕ :=
  ({ mem := fun r => if r = st.next then d else st.mem r, next := st.next + 1 },
   st.next)

/-- Overwrite the dictionary object behind a reference (in-place mutation). -/
def setRef {K : Type} (st : Store K) (r : ℕ) (d : K → Option ℝ) : Store K :=
  { st with mem := fun q => if q = r then d else st.mem q }

/-! ### `apply_momentum` (src/lasagne/updates.py lines 237-286)

`apply_momentum(updates, params, momentum, velocities)` copies the incoming
dictionary (`updates = OrderedDict(updates)`), then for each
(param, velocity) pair computes `x = momentum * velocity + updates[param]`
and mutates the copy with `updates[velocity] = x - param` and
`updates[param] = x`.  `paramVal`/`velVal` give the current values of the
parameter and velocity cells appearing inside the expressions (a velocity
allocated by `make_velocity` holds zeros; supplied velocities hold their
current values).  A missing key (`updates[param]` raising `KeyError` in
Python) is modelled by the default 0; the theorems about values only speak
about keys that are present. -/
def momentumStep {K : Type} [DecidableEq K] (momentum : ℝ)
    (paramVal velVal : K → ℝ) (d : K → Option ℝ) (pv : K × K) :
    K → Option ℝ :=
  let x := momentum * velVal pv.2 + (d pv.1).getD 0
  fset (fset d pv.2 (x - paramVal pv.1)) pv.1 x

def apply_momentum {K : Type} [DecidableEq K] (st : Store K)
    (updatesRef : ℕ) (params : List K) (momentum : ℝ) (velocities : List K)
    (paramVal velVal : K → ℝ) : Store K × ℕ :=
  let a := allocRef st (getRef st updatesRef)
  let st2 := (params.zip velocities).foldl
    (fun s pv => setRef s a.2 (momentumStep momentum paramVal velVal (getRef s a.2) pv))
    a.1
  (st2, a.2)

/-! ### `apply_nesterov_momentum` (src/lasagne/updates.py lines 331-386)

Identical frame structure; the loop body is
`x = momentum * velocity + updates[param] - param`,
`updates[velocity] = x`, `updates[param] = momentum * x + updates[param]`
(the second read of `updates[param]` happens after the velocity write, as in
the source). -/
def nesterovStep {K : Type} [DecidableEq K] (momentum : ℝ)
    (paramVal velVal : K → ℝ) (d : K → Option ℝ) (pv : K × K) :
    K → Option ℝ :=
  let x := momentum * velVal pv.2 + (d pv.1).getD 0 - paramVal pv.1
  let d1 := fset d pv.2 x
  fset d1 pv.1 (momentum * x + (d1 pv.1).getD 0)

def apply_nesterov_momentum {K : Type} [DecidableEq K] (st : Store K)
    (updatesRef : ℕ) (params : List K) (momentum : ℝ) (velocities : List K)
    (paramVal velVal : K → ℝ) : Store K × ℕ :=
  let a := allocRef st (getRef st updatesRef)
  let st2 := (params.zip velocities).foldl
    (fun s pv => setRef s a.2 (nesterovStep momentum paramVal velVal (getRef s a.2) pv))
    a.1
  (st2, a.2)

/-! #### Store lemmas: a loop that only writes one reference -/

theorem getRef_foldl_setRef_ne {K B : Type} (F : (K → Option ℝ) → B → K → Option ℝ)
    (l : List B) (st : Store K) (r j : ℕ) (hj : j ≠ r) :
    getRef (l.foldl (fun s b => setRef s r (F (getRef s r) b)) st) j
      = getRef st j := by
  induction l generalizing st with
  | nil => rfl
  | cons b rest ih =>
      simp only [List.foldl_cons]
      rw [ih]
      simp [getRef, setRef, hj]

theorem getRef_foldl_setRef_eq {K B : Type} (F : (K → Option ℝ) → B → K → Option ℝ)
    (l : List B) (st : Store K) (r : ℕ) :
    getRef (l.foldl (fun s b => setRef s r (F (getRef s r) b)) st) r
      = l.foldl F (getRef st r) := by
  induction l generalizing st with
  | nil => rfl
  | cons b rest ih =>
      simp only [List.foldl_cons]
      rw [ih]
      simp [getRef, setRef]

theorem next_foldl_setRef {K B : Type} (F : (K → Option ℝ) → B → K → Option ℝ)
    (l : List B) (st : Store K) (r : ℕ) :
    (l.foldl (fun s b => setRef s r (F (getRef s r) b)) st).next = st.next := by
  induction l generalizing st with
  | nil => rfl
  | cons b rest ih =>
      simp only [List.foldl_cons]
      rw [ih]
      rfl

/-! #### Dictionary-level lemmas about the momentum loop -/

/-- A cell that is neither a parameter nor a velocity of the loop is left
untouched by the momentum loop. -/
theorem momentumLoop_not_mem {K : Type} [DecidableEq K] (m : ℝ)
    (pV vV : K → ℝ) (pvs : List (K × K)) (d : K → Option ℝ) (k : K)
    (hp : k ∉ pvs.map Prod.fst) (hv : k ∉ pvs.map Prod.snd) :
    pvs.foldl (momentumStep m pV vV) d k = d k := by
  induction pvs generalizing d with
  | nil => rfl
  | cons pv rest ih =>
      simp only [List.map_cons, List.mem_cons, not_or] at hp hv
      simp only [List.foldl_cons]
      rw [ih _ hp.2 hv.2]
      simp [momentumStep, fset, hp.1, hv.1]

/-- The momentum loop writes, for each pair `(p, w)` with distinct
parameters, distinct velocities and velocities disjoint from parameters,
`x = m * velocity + updates[p]` into `p` and `x - p` into `w`, where
`updates[p]` is the incoming dictionary's value. -/
theorem momentumLoop_mem {K : Type} [DecidableEq K] (m : ℝ) (pV vV : K → ℝ)
    (pvs : List (K × K)) (d : K → Option ℝ) (p w : K)
    (hmem : (p, w) ∈ pvs)
    (hnp : (pvs.map Prod.fst).Nodup) (hnv : (pvs.map Prod.snd).Nodup)
    (hdisj : ∀ q ∈ pvs.map Prod.snd, q ∉ pvs.map Prod.fst) :
    pvs.foldl (momentumStep m pV vV) d p = some (m * vV w + (d p).getD 0) ∧
    pvs.foldl (momentumStep m pV vV) d w
      = some (m * vV w + (d p).getD 0 - pV p) := by
  induction pvs generalizing d with
  | nil => simp at hmem
  | cons pv rest ih =>
      rcases pv with ⟨p0, w0⟩
      simp only [List.map_cons, List.nodup_cons] at hnp hnv
      have hw0p : w0 ∉ (p0 :: rest.map Prod.fst) := by
        have := hdisj w0 (by simp)
        simpa using this
      rcases List.mem_cons.mp hmem with heq | htail
      · -- the pair is the head of the loop
        have hpp : p = p0 := congrArg Prod.fst heq
        have hww : w = w0 := congrArg Prod.snd heq
        subst hpp; subst hww
        have hwp : w ≠ p := by
          intro hc
          exact hw0p (by simp [hc])
        simp only [List.foldl_cons]
        have hstep : momentumStep m pV vV d (p, w) p
              = some (m * vV w + (d p).getD 0) ∧
            momentumStep m pV vV d (p, w) w
              = some (m * vV w + (d p).getD 0 - pV p) := by
          constructor
          · simp [momentumStep, fset]
          · simp [momentumStep, fset, hwp]
        have hpf : p ∉ rest.map Prod.fst := hnp.1
        have hps : p ∉ rest.map Prod.snd := by
          intro hc
          exact (hdisj p (by simp [hc])) (by simp)
        have hwf : w ∉ rest.map Prod.fst := by
          intro hc
          exact hw0p (by simp [hc])
        have hws : w ∉ rest.map Prod.snd := hnv.1
        rw [momentumLoop_not_mem m pV vV rest _ p hpf hps,
          momentumLoop_not_mem m pV vV rest _ w hwf hws]
        exact hstep
      · -- the pair is in the tail; the head writes other cells
        have hpf : p ∈ rest.map Prod.fst :=
          List.mem_map.mpr ⟨(p, w), htail, rfl⟩
        have hpp0 : p ≠ p0 := by
          intro hc
          exact hnp.1 (hc ▸ hpf)
        have hpw0 : p ≠ w0 := by
          intro hc
          exact hw0p (by simp [← hc, hpf])
        have hd1 : momentumStep m pV vV d (p0, w0) p = d p := by
          simp [momentumStep, fset, hpp0, hpw0]
        simp only [List.foldl_cons]
        have hdisj2 : ∀ q ∈ rest.map Prod.snd, q ∉ rest.map Prod.fst := by
          intro q hq hq2
          exact (hdisj q (by simp [hq])) (by simp [hq2])
        have := ih (momentumStep m pV vV d (p0, w0)) htail hnp.2 hnv.2 hdisj2
        rw [hd1] at this
        exact this

/-! ### `adam` (src/lasagne/updates.py lines 643-710)

A single shared float counter cell `Adam_t` starts at 0 (it takes the
natural values 0, 1, 2, ..., modelled as `ℕ`): `t = t_prev + 1`,
`a_t = learning_rate * sqrt(1 - beta2**t) / (1 - beta1**t)` is computed once,
outside the per-parameter loop; for each parameter the loop writes
`m_t = beta1*m_prev + (1-beta1)*g_t`, `v_t = beta2*v_prev + (1-beta2)*g_t**2`
and `param - a_t*m_t/(sqrt(v_t) + epsilon)`, and after the loop
`updates[t_prev] = t`. -/
inductive AdamCell (n : ℕ) where
  | tCell : AdamCell n
  | m : Fin n → AdamCell n
  | v : Fin n → AdamCell n
  | param : Fin n → AdamCell n
deriving DecidableEq

/-- The shared bias-correction step factor of `adam` at counter value `t`. -/
def adam_a_t (learning_rate beta1 beta2 : ℝ) (t : ℕ) : ℝ :=
  learning_rate * Real.sqrt (1 - beta2 ^ t) / (1 - beta1 ^ t)

def adam {n : ℕ} (learning_rate beta1 beta2 epsilon : ℝ) (t_prev : ℕ)
    (paramV gradV m_prev v_prev : Fin n → ℝ) : AdamCell n → Option ℝ :=
  let t := t_prev + 1
  let a_t := adam_a_t learning_rate beta1 beta2 t
  fun c =>
    match c with
    | .tCell => some (t : ℝ)
    | .m i => some (beta1 * m_prev i + (1 - beta1) * gradV i)
    | .v i => some (beta2 * v_prev i + (1 - beta2) * gradV i ^ 2)
    | .param i =>
        let m_t := beta1 * m_prev i + (1 - beta1) * gradV i
        let v_t := beta2 * v_prev i + (1 - beta2) * gradV i ^ 2
        some (paramV i - a_t * m_t / (Real.sqrt v_t + epsilon))

/-! ### `cocob` (src/lasagne/updates.py lines 776-802)

For each parameter the source allocates four zero-initialized state cells
`l`, `g`, `r`, `s` and computes
`l_t = maximum(l * 0.999, abs(grad))`, `g_t = g + abs(grad)`,
`r_t = clip(r - param * grad, 0, 1000)`, `s_t = s + grad`,
`factor = s_t / (l_t * maximum(g_t + l_t, alpha * l_t) + epsilon)`,
and writes only `updates[param] = param - factor * (l_t + r_t)`: no entry
for `l`, `g`, `r` or `s` is ever added to the returned mapping, so those
cells keep their current values when the mapping is applied. -/
inductive CocobCell (n : ℕ) where
  | param : Fin n → CocobCell n
  | l : Fin n → CocobCell n
  | g : Fin n → CocobCell n
  | r : Fin n → CocobCell n
  | s : Fin n → CocobCell n
deriving DecidableEq

/-- The per-step quantity `l_t = maximum(l * 0.999, abs(grad))` of `cocob`. -/
def cocob_l_t (l grad : ℝ) : ℝ := max (l * (999 / 1000)) |grad|

def cocob {n : ℕ} (alpha epsilon : ℝ)
    (paramV gradV lV gV rV sV : Fin n → ℝ) : CocobCell n → Option ℝ :=
  fun c =>
    match c with
    | .param i =>
        let l_t := cocob_l_t (lV i) (gradV i)
        let g_t := gV i + |gradV i|
        let r_t := min (max (rV i - paramV i * gradV i) 0) 1000
        let s_t := sV i + gradV i
        let factor := s_t / (l_t * max (g_t + l_t) (alpha * l_t) + epsilon)
        some (paramV i - factor * (l_t + r_t))
    | _ => none

/-- The current values of the cocob cells, as an environment for
`nextValue`. -/
def cocobEnv {n : ℕ} (paramV lV gV rV sV : Fin n → ℝ) : CocobCell n → ℝ :=
  fun c =>
    match c with
    | .param i => paramV i
    | .l i => lV i
    | .g i => gV i
    | .r i => rV i
    | .s i => sV i

/-! ### `yellow_fin` (src/lasagne/updates.py lines 805-852)

Given the current smoothed scalars `alpha` (learning rate) and `mu`
(momentum) and the estimated quantities `d`, `h_min`, `h_max`, `c` produced
by `distance_to_optim` / `curvature_range` / `gradient_variance`, the tuner
computes the closed-form solve of lines 831-845, smooths `alpha_t`, `mu_t`
with `ema(beta, _, _)` (the constant-alpha mode) into
`updates[alpha]`, `updates[mu]`, and applies
`momentum(grads, params, updates[alpha], updates[mu])` — which is `sgd`
(`param - lr * grad`) composed with `apply_momentum`
(`x = mu * velocity + updates[param]`; `velocity' = x - param`;
`param' = x`), the `lr_decay` wrapper passing through at its default
`decay_period = 0`. -/
structure YellowFinResult (n : ℕ) where
  alphaNew : ℝ
  muNew : ℝ
  paramNew : Fin n → ℝ
  velNew : Fin n → ℝ

def yellow_fin {n : ℕ} (beta alphaS muS : ℝ) (paramV velV gradV : Fin n → ℝ)
    (d h_min h_max c : ℝ) : YellowFinResult n :=
  let p := (d ^ 2 * h_min ^ 2) / (2 * c)
  let w3 := p * (Real.sqrt (0.25 + p / 27) - 0.5)
  let w := w3 ^ ((1 : ℝ) / 3)
  let y := w - p / (3 * w)
  let mu_sqrt1 := y + 1
  let mu_sqrt2 :=
    (Real.sqrt h_max - Real.sqrt h_min) / (Real.sqrt h_max + Real.sqrt h_min)
  let mu_sqrt := max mu_sqrt1 mu_sqrt2
  let alpha_t := (1 - mu_sqrt) ^ 2 / h_min
  let mu_t := mu_sqrt ^ 2
  let muNew := ema beta muS mu_t none none
  let alphaNew := ema beta alphaS alpha_t none none
  { alphaNew := alphaNew
    muNew := muNew
    paramNew := fun i => muNew * velV i + (paramV i - alphaNew * gradV i)
    velNew := fun i => muNew * velV i + (paramV i - alphaNew * gradV i) - paramV i }

/-! ### `norm_constraint` (src/lasagne/updates.py lines 900-977)

For a tensor of rank `ndim` without caller-supplied axes, the norm axes are
inferred: `(0,)` for rank 2, all-but-axis-0 for ranks 3-5, otherwise a
`ValueError` (`UnsupportedRank`).  Then
`norms = sqrt(sum(sqr(tensor), axis=sum_over, keepdims=True))`,
`target_norms = clip(norms, 0, max_norm)`, and the output is
`tensor * (target_norms / (epsilon + norms))`.  The rank-2 case with
inferred axes sums over axis 0, i.e. one norm per column. -/
inductive NormError where
  | unsupportedRank : NormError
deriving DecidableEq

/-- The axis inference of `norm_constraint` (lines 957-969). -/
def norm_constraint_axes (ndim : ℕ) (norm_axes : Option (List ℕ)) :
    Except NormError (List ℕ) :=
  match norm_axes with
  | some axes => .ok axes
  | none =>
      if ndim = 2 then .ok [0]
      else if ndim = 3 ∨ ndim = 4 ∨ ndim = 5 then .ok (List.range' 1 (ndim - 1))
      else .error .unsupportedRank

/-- `T.clip(x, lo, hi)`. -/
def clip (x lo hi : ℝ) : ℝ := min (max x lo) hi

/-- The per-column norm of a rank-2 tensor: `sqrt(sum(sqr(X), axis=0))`. -/
def colNorm {m n : ℕ} (X : Fin m → Fin n → ℝ) (j : Fin n) : ℝ :=
  Real.sqrt (∑ i, X i j ^ 2)

/-- `norm_constraint` specialized to a rank-2 tensor with inferred axes
(axis 0; `norm_constraint_axes 2 none = .ok [0]`). -/
def norm_constraint {m n : ℕ} (X : Fin m → Fin n → ℝ)
    (max_norm epsilon : ℝ) : Fin m → Fin n → ℝ :=
  fun i j =>
    let norms := colNorm X j
    let target_norms := clip norms 0 max_norm
    X i j * (target_norms / (epsilon + norms))

/-! ## Claim theorems -/

/-- C7: the `ema` primitive has three mutually exclusive modes: with
`t = None` it returns exactly `alpha*state + (1-alpha)*observation` (so
`ema(0.9, 0, 1) = 0.1`); with `t` given and no `init_period` it returns that
value divided by `1 - alpha^(t+1)` (so `ema(0.9, 0, 1, t=0) = 1.0`); with
both `t` and a positive `init_period = T` given it instead replaces `alpha`
by `alpha * min(1, (T-1)*t/T^2 + 1/T)` and applies no bias-correction
division. -/
theorem ema_three_modes :
    (∀ (alpha s x : ℝ) (ip : Option ℕ),
        ema alpha s x none ip = alpha * s + (1 - alpha) * x) ∧
    (∀ (alpha s x : ℝ) (t : ℕ),
        ema alpha s x (some t) none
          = (alpha * s + (1 - alpha) * x) / (1 - alpha ^ (t + 1))) ∧
    (∀ (alpha s x : ℝ) (t T : ℕ), 0 < T →
        ema alpha s x (some t) (some T)
          = (alpha * min 1 (((T : ℝ) - 1) * (t : ℝ) / (T : ℝ) ^ 2 + 1 / (T : ℝ))) * s
            + (1 - alpha * min 1 (((T : ℝ) - 1) * (t : ℝ) / (T : ℝ) ^ 2 + 1 / (T : ℝ))) * x) ∧
    ema (9 / 10) 0 1 none none = 1 / 10 ∧
    ema (9 / 10) 0 1 (some 0) none = 1 := by
  refine ⟨?_, ?_, ?_, ?_, ?_⟩
  · intro alpha s x ip
    cases ip <;> simp [ema, exponential_moving_average]
  · intro alpha s x t
    simp [ema, exponential_moving_average]
  · intro alpha s x t T hT
    simp [ema, exponential_moving_average, hT]
  · norm_num [ema, exponential_moving_average]
  · norm_num [ema, exponential_moving_average]

/-- Witness for C7: the ramped mode at `alpha = 1/2`, `t = 0`, `T = 1`. -/
theorem ema_three_modes_witness :
    ema (1 / 2) 0 1 (some 0) (some 1)
      = (1 / 2 * min 1 ((((1 : ℕ) : ℝ) - 1) * ((0 : ℕ) : ℝ) / ((1 : ℕ) : ℝ) ^ 2 + 1 / ((1 : ℕ) : ℝ))) * 0
        + (1 - 1 / 2 * min 1 ((((1 : ℕ) : ℝ) - 1) * ((0 : ℕ) : ℝ) / ((1 : ℕ) : ℝ) ^ 2 + 1 / ((1 : ℕ) : ℝ))) * 1 :=
  ema_three_modes.2.2.1 (1 / 2) 0 1 0 1 (by decide)

/-- C8: for every base rule wrapped by `lr_decay`, calling the wrapped rule
with `decay_period = 0` (or with `decay_factor = 1`) returns exactly the
same update mapping as calling the undecorated rule with the raw learning
rate: no decay counter or shared learning-rate state is introduced. -/
theorem lr_decay_passthrough {K : Type} [DecidableEq K]
    (updates_fn : ℝ → (K → Option ℝ)) (lrKey : K) (countKey : K → K)
    (countVal : K → ℤ) (lr : ℝ) (decay_period : ℤ) (decay_factor : ℝ) :
    lr_decay updates_fn lrKey countKey countVal lr 0 decay_factor
        = updates_fn lr ∧
    lr_decay updates_fn lrKey countKey countVal lr decay_period 1
        = updates_fn lr := by
  constructor
  · simp [lr_decay]
  · simp [lr_decay]

/-- C9: gradient resolution fails if and only if the input is a gradient
list whose length differs from the parameter-list length, or some element
of the parameter list is not a shared variable; a list of matching length
over valid parameters is returned unchanged, and a scalar loss yields one
gradient per parameter in the order of the parameter list. -/
theorem get_or_compute_grads_contract {L P G : Type} (grad : L → P → G)
    (isShared : P → Bool) (input : List G ⊕ L) (params : List P) :
    ((∃ e, get_or_compute_grads grad isShared input params = .error e) ↔
      ((∃ gs, input = Sum.inl gs ∧ gs.length ≠ params.length) ∨
        ∃ p ∈ params, isShared p = false)) ∧
    (∀ gs, input = Sum.inl gs → gs.length = params.length →
      (∀ p ∈ params, isShared p = true) →
      get_or_compute_grads grad isShared input params = .ok gs) ∧
    (∀ loss, input = Sum.inr loss → (∀ p ∈ params, isShared p = true) →
      get_or_compute_grads grad isShared input params
        = .ok (params.map (grad loss))) := by
  have hany : (params.any fun p => !(isShared p)) = true ↔
      ∃ p ∈ params, isShared p = false := by
    simp [List.any_eq_true]
  refine ⟨⟨?_, ?_⟩, ?_, ?_⟩
  · rintro ⟨e, he⟩
    by_cases hb : (params.any fun p => !(isShared p)) = true
    · exact Or.inr (hany.mp hb)
    · unfold get_or_compute_grads at he
      rw [if_neg hb] at he
      cases input with
      | inl gs =>
          by_cases hlen : gs.length = params.length
          · simp [hlen] at he
          · exact Or.inl ⟨gs, rfl, hlen⟩
      | inr loss => simp at he
  · rintro (⟨gs, hgs, hlen⟩ | hbad)
    · subst hgs
      by_cases hb : (params.any fun p => !(isShared p)) = true
      · exact ⟨.invalidParameterKind, by simp [get_or_compute_grads, hb]⟩
      · exact ⟨.shapeMismatch, by simp [get_or_compute_grads, hb, hlen]⟩
    · have hb : (params.any fun p => !(isShared p)) = true := hany.mpr hbad
      exact ⟨.invalidParameterKind, by simp [get_or_compute_grads, hb]⟩
  · intro gs hgs hlen hall
    subst hgs
    have hb : ¬((params.any fun p => !(isShared p)) = true) := by
      rw [hany]
      rintro ⟨p, hp, hps⟩
      rw [hall p hp] at hps
      simp at hps
    simp [get_or_compute_grads, hb, hlen]
  · intro loss hloss hall
    subst hloss
    have hb : ¬((params.any fun p => !(isShared p)) = true) := by
      rw [hany]
      rintro ⟨p, hp, hps⟩
      rw [hall p hp] at hps
      simp at hps
    simp [get_or_compute_grads, hb]

/-- Witness for C9: a two-parameter gradient list of matching length over
valid parameters is returned unchanged. -/
theorem get_or_compute_grads_contract_witness :
    get_or_compute_grads (fun (l : ℕ) (p : ℕ) => l + p) (fun _ => true)
      (Sum.inl [10, 20]) [1, 2] = .ok [10, 20] :=
  (get_or_compute_grads_contract (fun (l : ℕ) (p : ℕ) => l + p) (fun _ => true)
      (Sum.inl [10, 20]) [1, 2]).2.1 [10, 20] rfl rfl (by decide)

/-- C3: for `apply_burnout` with `burnout = N > 0` and the step counter
starting at 0, every key of the long mapping present in both mappings gets
the initial mapping's value at every step `t < N` and the long mapping's
value at every step `t ≥ N`: a hard selection, never an interpolation. -/
theorem apply_burnout_hard_switch {K V : Type} [BEq K] [LawfulBEq K]
    (long_updates initial_updates : List (K × V)) (keyVal : K → V)
    (burnout t : ℕ) (k : K) (lv iv : V)
    (hb : 0 < burnout)
    (hl : long_updates.lookup k = some lv)
    (hi : initial_updates.lookup k = some iv) :
    (t < burnout →
      (apply_burnout long_updates initial_updates keyVal burnout t).lookup k
        = some iv) ∧
    (burnout ≤ t →
      (apply_burnout long_updates initial_updates keyVal burnout t).lookup k
        = some lv) := by
  constructor
  · intro ht
    have hcond : ¬ (burnout ≤ t) := not_le.mpr ht
    simp only [apply_burnout, if_pos hb, if_neg hcond]
    rw [zip_map_eq_map_entry]
    rw [lookup_map_entry long_updates _ k lv hl]
    simp [hi]
  · intro ht
    simp only [apply_burnout, if_pos hb, if_pos ht]
    rw [zip_map_eq_map_entry]
    rw [lookup_map_entry long_updates _ k lv hl]

/-- Witness for C3: `burnout = 3`, key 0 in both mappings, step `t = 2`
still delivers the initial mapping's value. -/
theorem apply_burnout_hard_switch_witness :
    (apply_burnout [((0 : ℕ), (5 : ℤ))] [((0 : ℕ), (3 : ℤ))] (fun _ => 0) 3 2).lookup 0
      = some 3 :=
  (apply_burnout_hard_switch [((0 : ℕ), (5 : ℤ))] [((0 : ℕ), (3 : ℤ))]
      (fun _ => 0) 3 2 0 5 3 (by decide) (by decide) (by decide)).1 (by decide)

/-- C5: `adam` has one step counter shared by all parameters, updated as
`t' = t + 1`; the step-size factor is
`a_t = learning_rate * sqrt(1 - beta2^t') / (1 - beta1^t')`; on the first
step from the zero-initialized counter it equals
`learning_rate * sqrt(1 - beta2) / (1 - beta1)` — and not `learning_rate`
in general, as the concrete instance `lr = 1`, `beta1 = 0`, `beta2 = 3/4`
shows; each parameter's update is
`param' = param - a_t * m' / (sqrt(v') + epsilon)` with `m'`, `v'` the
refreshed moment EMAs. -/
theorem adam_shared_counter_and_bias_correction {n : ℕ}
    (learning_rate beta1 beta2 epsilon : ℝ) (t_prev : ℕ)
    (paramV gradV m_prev v_prev : Fin n → ℝ) :
    (adam learning_rate beta1 beta2 epsilon t_prev paramV gradV m_prev v_prev
        AdamCell.tCell = some ((t_prev : ℝ) + 1)) ∧
    (∀ i, adam learning_rate beta1 beta2 epsilon t_prev paramV gradV m_prev v_prev
        (AdamCell.m i) = some (beta1 * m_prev i + (1 - beta1) * gradV i)) ∧
    (∀ i, adam learning_rate beta1 beta2 epsilon t_prev paramV gradV m_prev v_prev
        (AdamCell.v i) = some (beta2 * v_prev i + (1 - beta2) * gradV i ^ 2)) ∧
    (∀ i, adam learning_rate beta1 beta2 epsilon t_prev paramV gradV m_prev v_prev
        (AdamCell.param i)
        = some (paramV i
            - adam_a_t learning_rate beta1 beta2 (t_prev + 1)
              * (beta1 * m_prev i + (1 - beta1) * gradV i)
              / (Real.sqrt (beta2 * v_prev i + (1 - beta2) * gradV i ^ 2) + epsilon))) ∧
    (adam_a_t learning_rate beta1 beta2 (t_prev + 1)
        = learning_rate * Real.sqrt (1 - beta2 ^ (t_prev + 1))
          / (1 - beta1 ^ (t_prev + 1))) ∧
    (t_prev = 0 → adam_a_t learning_rate beta1 beta2 (t_prev + 1)
        = learning_rate * Real.sqrt (1 - beta2) / (1 - beta1)) ∧
    (adam_a_t 1 0 (3 / 4) 1 = 1 / 2 ∧ adam_a_t 1 0 (3 / 4) 1 ≠ 1) := by
  have hfirst : adam_a_t 1 0 (3 / 4) 1 = 1 / 2 := by
    rw [adam_a_t]
    rw [show (1 - (3 / 4 : ℝ) ^ 1) = (1 / 2 : ℝ) ^ 2 by norm_num]
    rw [Real.sqrt_sq (by norm_num)]
    norm_num
  refine ⟨?_, fun i => rfl, fun i => rfl, fun i => rfl, rfl, ?_, hfirst, ?_⟩
  · simp [adam]
  · intro h
    subst h
    simp [adam_a_t, pow_one]
  · rw [hfirst]
    norm_num

/-- The claim's closed-form momentum solve, stated from the spec's words
(section 4.4) for comparison with `yellow_fin`: with
`p = d^2*h_min^2/(2c)`, `w3 = p*(sqrt(0.25 + p/27) - 0.5)`, `w = w3^(1/3)`,
`y = w - p/(3w)`, the momentum square root is
`max(y + 1, (sqrt(h_max)-sqrt(h_min))/(sqrt(h_max)+sqrt(h_min)))`. -/
def yellow_fin_mu_sqrt (d h_min h_max c : ℝ) : ℝ :=
  let p := d ^ 2 * h_min ^ 2 / (2 * c)
  let w3 := p * (Real.sqrt (0.25 + p / 27) - 0.5)
  let w := w3 ^ ((1 : ℝ) / 3)
  let y := w - p / (3 * w)
  max (y + 1)
    ((Real.sqrt h_max - Real.sqrt h_min) / (Real.sqrt h_max + Real.sqrt h_min))

/-- C6: in `yellow_fin`, given the estimated quantities `d`, `h_min`,
`h_max`, `c`, the pre-smoothing momentum and learning rate are exactly the
closed-form solve (`alpha_t = (1 - mu_sqrt)^2 / h_min`,
`mu_t = mu_sqrt^2`, with `mu_sqrt` as in `yellow_fin_mu_sqrt`); these are
EMA-smoothed into the persistent learning-rate and momentum scalars, and
those smoothed scalars are fed to the momentum rule (SGD plus
`apply_momentum`). -/
theorem yellow_fin_closed_form_solve {n : ℕ} (beta alphaS muS : ℝ)
    (paramV velV gradV : Fin n → ℝ) (d h_min h_max c : ℝ) :
    (yellow_fin beta alphaS muS paramV velV gradV d h_min h_max c).alphaNew
        = ema beta alphaS
            ((1 - yellow_fin_mu_sqrt d h_min h_max c) ^ 2 / h_min) none none ∧
    (yellow_fin beta alphaS muS paramV velV gradV d h_min h_max c).muNew
        = ema beta muS (yellow_fin_mu_sqrt d h_min h_max c ^ 2) none none ∧
    (∀ i, (yellow_fin beta alphaS muS paramV velV gradV d h_min h_max c).paramNew i
        = (yellow_fin beta alphaS muS paramV velV gradV d h_min h_max c).muNew * velV i
          + (paramV i
            - (yellow_fin beta alphaS muS paramV velV gradV d h_min h_max c).alphaNew
              * gradV i)) ∧
    (∀ i, (yellow_fin beta alphaS muS paramV velV gradV d h_min h_max c).velNew i
        = (yellow_fin beta alphaS muS paramV velV gradV d h_min h_max c).paramNew i
          - paramV i) :=
  ⟨rfl, rfl, fun _ => rfl, fun _ => rfl⟩

/-- C1 counterexample: with current `l = 1` and `grad = 2`, the update
mapping of `cocob` holds no entry for the `l` cell, so its next value is
1, not `max(l, |grad|) = 2`, and `l' >= |grad|` fails; and with `l = 1`,
`grad = 0`, the per-step quantity `l_t` is `0.999 < 1 = max(l, |grad|)`,
so `l' >= l` fails on the expression reading as well. -/
theorem cocob_l_counterexample :
    let u := cocob (n := 1) 1000 (1 / 1000000000)
      (fun _ => 0) (fun _ => 2) (fun _ => 1) (fun _ => 0) (fun _ => 0) (fun _ => 0)
    let env := cocobEnv (n := 1)
      (fun _ => 0) (fun _ => 1) (fun _ => 0) (fun _ => 0) (fun _ => 0)
    nextValue u env (CocobCell.l 0) = 1 ∧
    ¬ (nextValue u env (CocobCell.l 0) = max (env (CocobCell.l 0)) |(2 : ℝ)|) ∧
    ¬ (nextValue u env (CocobCell.l 0) ≥ |(2 : ℝ)|) ∧
    cocob_l_t 1 0 = 999 / 1000 ∧
    ¬ (cocob_l_t 1 0 ≥ 1) := by
  refine ⟨rfl, ?_, ?_, ?_, ?_⟩
  · show ¬ ((1 : ℝ) = max 1 |(2 : ℝ)|)
    rw [abs_of_pos (by norm_num : (0 : ℝ) < 2)]
    norm_num
  · show ¬ ((1 : ℝ) ≥ |(2 : ℝ)|)
    rw [abs_of_pos (by norm_num : (0 : ℝ) < 2)]
    norm_num
  · rw [cocob_l_t, abs_zero]
    norm_num
  · rw [cocob_l_t, abs_zero]
    norm_num

/-- C1 amended: in `cocob` the returned update mapping contains no entry
for the state cell `l` (nor for `g`, `r`, `s`), so `l`'s next value under
the mapping equals its current value; the per-step quantity actually used
in the parameter update is `l_t = max(0.999*l, |grad|)`, which satisfies
`l_t >= |grad|` and `l_t >= 0.999*l`, but is not a running maximum of `l`
itself. -/
theorem cocob_l_not_updated {n : ℕ} (alpha epsilon : ℝ)
    (paramV gradV lV gV rV sV : Fin n → ℝ) (cur : CocobCell n → ℝ) (i : Fin n) :
    (cocob alpha epsilon paramV gradV lV gV rV sV (CocobCell.l i) = none) ∧
    (cocob alpha epsilon paramV gradV lV gV rV sV (CocobCell.g i) = none) ∧
    (cocob alpha epsilon paramV gradV lV gV rV sV (CocobCell.r i) = none) ∧
    (cocob alpha epsilon paramV gradV lV gV rV sV (CocobCell.s i) = none) ∧
    (nextValue (cocob alpha epsilon paramV gradV lV gV rV sV) cur (CocobCell.l i)
        = cur (CocobCell.l i)) ∧
    (cocob_l_t (lV i) (gradV i) = max (lV i * (999 / 1000)) |gradV i|) ∧
    |gradV i| ≤ cocob_l_t (lV i) (gradV i) ∧
    (999 / 1000) * lV i ≤ cocob_l_t (lV i) (gradV i) := by
  refine ⟨rfl, rfl, rfl, rfl, rfl, rfl, le_max_right _ _, ?_⟩
  rw [cocob_l_t, mul_comm]
  exact le_max_left _ _

/-! #### Shared characterization of the two momentum combinators -/

theorem apply_momentum_spec {K : Type} [DecidableEq K] (st : Store K)
    (updatesRef : ℕ) (params : List K) (momentum : ℝ) (velocities : List K)
    (paramVal velVal : K → ℝ) :
    (apply_momentum st updatesRef params momentum velocities paramVal velVal).2
        = st.next ∧
    getRef (apply_momentum st updatesRef params momentum velocities paramVal velVal).1
        st.next
      = (params.zip velocities).foldl (momentumStep momentum paramVal velVal)
          (getRef st updatesRef) ∧
    (∀ j, j ≠ st.next →
      getRef (apply_momentum st updatesRef params momentum velocities paramVal velVal).1 j
        = getRef st j) := by
  refine ⟨rfl, ?_, ?_⟩
  · show getRef ((params.zip velocities).foldl
        (fun s pv => setRef s st.next
          (momentumStep momentum paramVal velVal (getRef s st.next) pv))
        (allocRef st (getRef st updatesRef)).1) st.next = _
    rw [getRef_foldl_setRef_eq (momentumStep momentum paramVal velVal)]
    have : getRef (allocRef st (getRef st updatesRef)).1 st.next
        = getRef st updatesRef := by
      simp [allocRef, getRef]
    rw [this]
  · intro j hj
    show getRef ((params.zip velocities).foldl
        (fun s pv => setRef s st.next
          (momentumStep momentum paramVal velVal (getRef s st.next) pv))
        (allocRef st (getRef st updatesRef)).1) j = _
    rw [getRef_foldl_setRef_ne (momentumStep momentum paramVal velVal) _ _ _ _ hj]
    simp [allocRef, getRef, hj]

theorem apply_nesterov_momentum_spec {K : Type} [DecidableEq K] (st : Store K)
    (updatesRef : ℕ) (params : List K) (momentum : ℝ) (velocities : List K)
    (paramVal velVal : K → ℝ) :
    (apply_nesterov_momentum st updatesRef params momentum velocities paramVal velVal).2
        = st.next ∧
    getRef (apply_nesterov_momentum st updatesRef params momentum velocities paramVal velVal).1
        st.next
      = (params.zip velocities).foldl (nesterovStep momentum paramVal velVal)
          (getRef st updatesRef) ∧
    (∀ j, j ≠ st.next →
      getRef (apply_nesterov_momentum st updatesRef params momentum velocities paramVal velVal).1 j
        = getRef st j) := by
  refine ⟨rfl, ?_, ?_⟩
  · show getRef ((params.zip velocities).foldl
        (fun s pv => setRef s st.next
          (nesterovStep momentum paramVal velVal (getRef s st.next) pv))
        (allocRef st (getRef st updatesRef)).1) st.next = _
    rw [getRef_foldl_setRef_eq (nesterovStep momentum paramVal velVal)]
    have : getRef (allocRef st (getRef st updatesRef)).1 st.next
        = getRef st updatesRef := by
      simp [allocRef, getRef]
    rw [this]
  · intro j hj
    show getRef ((params.zip velocities).foldl
        (fun s pv => setRef s st.next
          (nesterovStep momentum paramVal velVal (getRef s st.next) pv))
        (allocRef st (getRef st updatesRef)).1) j = _
    rw [getRef_foldl_setRef_ne (nesterovStep momentum paramVal velVal) _ _ _ _ hj]
    simp [allocRef, getRef, hj]

/-- C4: `apply_momentum` with `momentum = 0` reduces to the wrapped rule:
for each (parameter, velocity) pair the returned mapping binds the
parameter to `updates[param]` — the unwrapped rule's value — and the
velocity to the raw update `updates[param] - param`. -/
theorem apply_momentum_zero_reduces {K : Type} [DecidableEq K] (st : Store K)
    (updatesRef : ℕ) (params velocities : List K) (paramVal velVal : K → ℝ)
    (p w : K) (u : ℝ)
    (hlen : params.length = velocities.length)
    (hnp : params.Nodup) (hnv : velocities.Nodup)
    (hdisj : ∀ q ∈ velocities, q ∉ params)
    (hmem : (p, w) ∈ params.zip velocities)
    (hu : getRef st updatesRef p = some u) :
    getRef (apply_momentum st updatesRef params 0 velocities paramVal velVal).1
        (apply_momentum st updatesRef params 0 velocities paramVal velVal).2 p
      = some u ∧
    getRef (apply_momentum st updatesRef params 0 velocities paramVal velVal).1
        (apply_momentum st updatesRef params 0 velocities paramVal velVal).2 w
      = some (u - paramVal p) := by
  obtain ⟨href, hval, -⟩ :=
    apply_momentum_spec st updatesRef params 0 velocities paramVal velVal
  rw [href, hval]
  have hmf : (params.zip velocities).map Prod.fst = params :=
    List.map_fst_zip params velocities (le_of_eq hlen)
  have hms : (params.zip velocities).map Prod.snd = velocities :=
    List.map_snd_zip params velocities (ge_of_eq hlen)
  have hmain := momentumLoop_mem 0 paramVal velVal (params.zip velocities)
    (getRef st updatesRef) p w hmem
    (by rw [hmf]; exact hnp) (by rw [hms]; exact hnv)
    (by rw [hmf, hms]; exact hdisj)
  rw [hu] at hmain
  simpa using hmain

/-- A one-parameter store for the momentum witnesses: reference 0 maps the
parameter cell 0 to the planned update value 5. -/
def demoDict : ℕ → Option ℝ := fun k => if k = 0 then some 5 else none

def demoStore : Store ℕ :=
  { mem := fun r => if r = 0 then demoDict else fun _ => none, next := 1 }

/-- Witness for C4: one parameter cell 0 with planned update 5, velocity
cell 1, current parameter value 2. -/
theorem apply_momentum_zero_reduces_witness :
    getRef (apply_momentum demoStore 0 [0] 0 [1] (fun _ => 2) (fun _ => 7)).1
        (apply_momentum demoStore 0 [0] 0 [1] (fun _ => 2) (fun _ => 7)).2 0
      = some 5 ∧
    getRef (apply_momentum demoStore 0 [0] 0 [1] (fun _ => 2) (fun _ => 7)).1
        (apply_momentum demoStore 0 [0] 0 [1] (fun _ => 2) (fun _ => 7)).2 1
      = some ((5 : ℝ) - 2) :=
  apply_momentum_zero_reduces demoStore 0 [0] [1] (fun _ => 2) (fun _ => 7)
    0 1 5 rfl (by decide) (by decide) (by decide) (by decide) rfl

/-- C10: `apply_momentum` and `apply_nesterov_momentum` never mutate the
update mapping passed in: each copies it into a fresh dictionary object
(returned reference distinct from the caller's), and after the call the
caller's reference still holds every original binding. -/
theorem momentum_combinators_no_mutation {K : Type} [DecidableEq K]
    (st : Store K) (updatesRef : ℕ) (params : List K) (momentum : ℝ)
    (velocities : List K) (paramVal velVal : K → ℝ)
    (h : updatesRef < st.next) :
    (getRef (apply_momentum st updatesRef params momentum velocities paramVal velVal).1
          updatesRef
        = getRef st updatesRef ∧
      (apply_momentum st updatesRef params momentum velocities paramVal velVal).2
        ≠ updatesRef) ∧
    (getRef (apply_nesterov_momentum st updatesRef params momentum velocities paramVal velVal).1
          updatesRef
        = getRef st updatesRef ∧
      (apply_nesterov_momentum st updatesRef params momentum velocities paramVal velVal).2
        ≠ updatesRef) := by
  have hne : updatesRef ≠ st.next := Nat.ne_of_lt h
  obtain ⟨href1, -, hframe1⟩ :=
    apply_momentum_spec st updatesRef params momentum velocities paramVal velVal
  obtain ⟨href2, -, hframe2⟩ :=
    apply_nesterov_momentum_spec st updatesRef params momentum velocities paramVal velVal
  refine ⟨⟨hframe1 updatesRef hne, ?_⟩, ⟨hframe2 updatesRef hne, ?_⟩⟩
  · rw [href1]
    exact fun hc => hne hc.symm
  · rw [href2]
    exact fun hc => hne hc.symm

/-- Witness for C10: on the one-parameter demo store, both combinators
leave the caller's dictionary binding intact and return a fresh
reference. -/
theorem momentum_combinators_no_mutation_witness :
    (getRef (apply_momentum demoStore 0 [0] (1 / 2) [1] (fun _ => 2) (fun _ => 7)).1 0
        = getRef demoStore 0 ∧
      (apply_momentum demoStore 0 [0] (1 / 2) [1] (fun _ => 2) (fun _ => 7)).2 ≠ 0) ∧
    (getRef (apply_nesterov_momentum demoStore 0 [0] (1 / 2) [1] (fun _ => 2) (fun _ => 7)).1 0
        = getRef demoStore 0 ∧
      (apply_nesterov_momentum demoStore 0 [0] (1 / 2) [1] (fun _ => 2) (fun _ => 7)).2 ≠ 0) :=
  momentum_combinators_no_mutation demoStore 0 [0] (1 / 2) [1]
    (fun _ => 2) (fun _ => 7) (by decide)

/-! #### Norm computations for `norm_constraint` -/

/-- A column whose every entry is scaled by the same nonnegative factor has
its norm scaled by that factor. -/
theorem colNorm_col_mul {m n : ℕ} (X Y : Fin m → Fin n → ℝ) (f : ℝ)
    (j : Fin n) (hY : ∀ i, Y i j = X i j * f) (hf : 0 ≤ f) :
    colNorm Y j = colNorm X j * f := by
  unfold colNorm
  have hsum : (∑ i, Y i j ^ 2) = (∑ i, X i j ^ 2) * f ^ 2 := by
    rw [Finset.sum_mul]
    exact Finset.sum_congr rfl fun i _ => by rw [hY i]; ring
  rw [hsum, Real.sqrt_mul (Finset.sum_nonneg fun i _ => sq_nonneg _),
    Real.sqrt_sq hf]

/-- The 1×1 tensor used by the C2 counterexample and witness. -/
def constThree : Fin 1 → Fin 1 → ℝ := fun _ _ => 3

theorem constThree_colNorm : colNorm constThree 0 = 3 := by
  unfold colNorm constThree
  rw [show (∑ _i : Fin 1, ((3 : ℝ)) ^ 2) = (3 : ℝ) ^ 2 by simp]
  exact Real.sqrt_sq (by norm_num)

/-- C2 counterexample: a 1×1 tensor with entry 3, `max_norm = 5`,
`epsilon = 1`: the column norm 3 is at or under the limit, yet the output
entry is `3 * 3/4 = 9/4`, not the unchanged input entry 3. -/
theorem norm_constraint_unchanged_counterexample :
    colNorm constThree 0 ≤ 5 ∧
    norm_constraint constThree 5 1 0 0 ≠ constThree 0 0 := by
  constructor
  · rw [constThree_colNorm]
    norm_num
  · show ¬ (constThree 0 0 * (clip (colNorm constThree 0) 0 5 / (1 + colNorm constThree 0))
        = constThree 0 0)
    rw [constThree_colNorm]
    have hclip : clip (3 : ℝ) 0 5 = 3 := by
      rw [clip]
      rw [max_eq_left (by norm_num : (0 : ℝ) ≤ 3)]
      exact min_eq_left (by norm_num)
    rw [hclip]
    unfold constThree
    norm_num

/-- C2 amended: for `norm_constraint` on a rank-2 tensor with inferred axes
(axis 0): every column whose norm `N` exceeds `max_norm` gets output norm
`max_norm * N/(epsilon + N)`, which is within `epsilon` of `max_norm`;
every column whose norm is at or under `max_norm` is scaled entrywise by
the factor `N/(epsilon + N)` — approximately, but not exactly, unchanged. -/
theorem norm_constraint_rescales {m n : ℕ} (X : Fin m → Fin n → ℝ)
    (max_norm epsilon : ℝ) (j : Fin n)
    (hmn : 0 ≤ max_norm) (heps : 0 < epsilon) :
    (norm_constraint_axes 2 none = .ok [0]) ∧
    (max_norm < colNorm X j →
      colNorm (norm_constraint X max_norm epsilon) j
          = max_norm * (colNorm X j / (epsilon + colNorm X j)) ∧
      |colNorm (norm_constraint X max_norm epsilon) j - max_norm| ≤ epsilon) ∧
    (colNorm X j ≤ max_norm →
      ∀ i, norm_constraint X max_norm epsilon i j
          = X i j * (colNorm X j / (epsilon + colNorm X j))) := by
  have hN : 0 ≤ colNorm X j := Real.sqrt_nonneg _
  have hden : 0 < epsilon + colNorm X j := by linarith
  refine ⟨rfl, ?_, ?_⟩
  · intro hlt
    have hclip : clip (colNorm X j) 0 max_norm = max_norm := by
      rw [clip, max_eq_left hN]
      exact min_eq_right hlt.le
    have hentry : ∀ i, norm_constraint X max_norm epsilon i j
        = X i j * (max_norm / (epsilon + colNorm X j)) := by
      intro i
      show X i j * (clip (colNorm X j) 0 max_norm / (epsilon + colNorm X j)) = _
      rw [hclip]
    have hout : colNorm (norm_constraint X max_norm epsilon) j
        = colNorm X j * (max_norm / (epsilon + colNorm X j)) :=
      colNorm_col_mul X _ _ j hentry (by positivity)
    have hcomm : colNorm X j * (max_norm / (epsilon + colNorm X j))
        = max_norm * (colNorm X j / (epsilon + colNorm X j)) := by
      ring
    refine ⟨by rw [hout, hcomm], ?_⟩
    rw [hout, hcomm]
    rw [abs_le]
    constructor
    · have h1 : max_norm * (colNorm X j / (epsilon + colNorm X j))
          = max_norm * colNorm X j / (epsilon + colNorm X j) := by
        ring
      rw [h1, neg_le_sub_iff_le_add, ← sub_le_iff_le_add, le_div_iff₀ hden]
      nlinarith [mul_le_mul_of_nonneg_right hlt.le heps.le, sq_nonneg epsilon]
    · have hle : max_norm * (colNorm X j / (epsilon + colNorm X j)) ≤ max_norm := by
        apply mul_le_of_le_one_right hmn
        rw [div_le_one hden]
        linarith
      linarith
  · intro hle i
    have hclip : clip (colNorm X j) 0 max_norm = colNorm X j := by
      rw [clip, max_eq_left hN]
      exact min_eq_left hle
    show X i j * (clip (colNorm X j) 0 max_norm / (epsilon + colNorm X j)) = _
    rw [hclip]

/-- Witness for C2 amended: the 1×1 tensor with entry 3 under
`max_norm = 5`, `epsilon = 1` is scaled entrywise by `3/(1+3)`. -/
theorem norm_constraint_rescales_witness :
    norm_constraint constThree 5 1 0 0
      = constThree 0 0 * (colNorm constThree 0 / (1 + colNorm constThree 0)) :=
  (norm_constraint_rescales constThree 5 1 0 (by norm_num) (by norm_num)).2.2
    (by rw [constThree_colNorm]; norm_num) 0

end

end Lasagne
